import Mathlib

/-!
Verification of the GitButler MCP commit tool and the StackService
cache layer (`packages/mcp/src/tools/client/commit.ts` and the bundled
`StackService` / Redux-toolkit endpoint definitions).

The embedding translates the TypeScript source into Lean:

* the `commit` tool function (lines 25-85 of `commit.ts`) becomes
  `GitButler.commit`, an explicitly-traced function returning the result
  (`Except String Unit`, errors carrying the exact thrown message) together
  with the ordered list of backend calls it issued;
* `listStacks` and `listStackBranches` (imported from `status.js`) are
  external reads, so they enter the model as parameters: the stack list
  itself, and an oracle `branchesOf` from stack id to the fetch outcome;
* `JSON.stringify` of the diff-spec array becomes `GitButler.jsonOfDiffSpecList`;
* the Redux-toolkit tag/invalidation discipline of `injectEndpoints`
  (providesTags / invalidatesTags) becomes `GitButler.invalidateEntry`;
* `createEntityAdapter` keyed by branch name with a name `sortComparer`,
  its `addMany`, `selectAll` and the `.at(index)` transform of
  `getBranchByIndex` become `GitButler.addMany`, `GitButler.branchView`
  and `GitButler.getBranchByIndex`.
-/

namespace GitButler

/-- A head entry of a stack; the commit tool only reads its `name`
(`stack.heads.map((h) => h.name)`). -/
structure BranchHead where
  name : String
deriving DecidableEq, Repr

/-- A stack as returned by the `stacks` backend command: an id and its
ordered list of heads. -/
structure Stack where
  id : String
  heads : List BranchHead
deriving DecidableEq, Repr

/-- A branch record as returned by the `stack_branches` backend command;
the commit tool reads `name` and `archived`. -/
structure WorkspaceBranch where
  name : String
  archived : Bool
deriving DecidableEq, Repr

/-- Modelled from the spec: `HunkHeader` (the `$lib/hunks/hunk` type is not
part of the shown sources) is a byte/line-range descriptor with old/new
start and length. The commit tool only ever builds empty hunk-header
lists. -/
structure HunkHeader where
  oldStart : Int
  oldLines : Int
  newStart : Int
  newLines : Int
deriving DecidableEq, Repr

/-- A diff spec as constructed by the commit tool:
`{ pathBytes: filePath, hunkHeaders: [] }`. -/
structure DiffSpec where
  pathBytes : String
  hunkHeaders : List HunkHeader
deriving DecidableEq, Repr

/-- The parameters of the `commit` tool (`CommitParamsSchema`), after zod
parsing has applied the defaults `all := false`, `filePaths := []`. The
`project_directory` field only routes the backend calls and is not
modelled. -/
structure CommitParams where
  message : String
  all : Bool
  filePaths : List String
  branch : String
deriving DecidableEq, Repr

/-! ### JSON serialization (`JSON.stringify` of the diff-spec array) -/

/-- One hex digit, lower case, as emitted by `JSON.stringify` escapes. -/
def hexDigit (n : Nat) : Char :=
  if n < 10 then Char.ofNat (48 + n) else Char.ofNat (87 + n)

/-- Four-hex-digit rendering used in `\uXXXX` escapes. -/
def hex4 (n : Nat) : String :=
  String.mk [hexDigit (n / 4096 % 16), hexDigit (n / 256 % 16),
    hexDigit (n / 16 % 16), hexDigit (n % 16)]

/-- The escape `JSON.stringify` applies to one character of a string. -/
def jsonEscapeChar (c : Char) : String :=
  if c = '"' then "\\\""
  else if c = '\\' then "\\\\"
  else if c = Char.ofNat 8 then "\\b"
  else if c = Char.ofNat 9 then "\\t"
  else if c = Char.ofNat 10 then "\\n"
  else if c = Char.ofNat 12 then "\\f"
  else if c = Char.ofNat 13 then "\\r"
  else if c.toNat < 32 then "\\u" ++ hex4 c.toNat
  else String.singleton c

/-- `JSON.stringify` of a string value. -/
def jsonOfString (s : String) : String :=
  "\"" ++ String.join (s.toList.map jsonEscapeChar) ++ "\""

/-- `JSON.stringify` of a hunk header object (field order as declared). -/
def jsonOfHunkHeader (h : HunkHeader) : String :=
  "\x7b\"oldStart\":" ++ toString h.oldStart ++
  ",\"oldLines\":" ++ toString h.oldLines ++
  ",\"newStart\":" ++ toString h.newStart ++
  ",\"newLines\":" ++ toString h.newLines ++ "\x7d"

/-- `JSON.stringify` of a JSON array given a serializer for the elements. -/
def jsonArray (f : α → String) (xs : List α) : String :=
  "[" ++ String.intercalate "," (xs.map f) ++ "]"

/-- `JSON.stringify` of one diff-spec object, keys in the insertion order
of the object literal in the tool (`pathBytes`, then `hunkHeaders`). -/
def jsonOfDiffSpec (d : DiffSpec) : String :=
  "\x7b\"pathBytes\":" ++ jsonOfString d.pathBytes ++
  ",\"hunkHeaders\":" ++ jsonArray jsonOfHunkHeader d.hunkHeaders ++ "\x7d"

/-- `JSON.stringify(diffSpec)` for the whole array. -/
def jsonOfDiffSpecList (ds : List DiffSpec) : String :=
  jsonArray jsonOfDiffSpec ds

/-! ### The `commit` tool (lines 25-85 of `commit.ts`) -/

/-- The backend round trips the commit tool can issue, in order:
the `stacks` listing (`listStacks`), a `stack_branches` listing for one
stack (`listStackBranches`), and the final commit dispatch
(`executeGitButlerCommand` with the accumulated argument list). -/
inductive BackendCall where
  | stacksList : BackendCall
  | stackBranchesList (stackId : String) : BackendCall
  | commitDispatch (args : List String) : BackendCall
deriving DecidableEq, Repr

/-- The diff-spec array built from `params.filePaths`: one spec per path,
in order, `hunkHeaders` empty (lines 35-41). -/
def mkDiffSpecs (paths : List String) : List DiffSpec :=
  paths.map fun fp => { pathBytes := fp, hunkHeaders := [] }

/-- The argument list accumulated before stack resolution (lines 26-45):
`commit --message <msg>`, then `--diff-spec <json>` when file paths were
supplied. -/
def buildArgs (p : CommitParams) : List String :=
  let base := ["commit", "--message", p.message]
  if p.filePaths.length > 0 then
    base ++ ["--diff-spec", jsonOfDiffSpecList (mkDiffSpecs p.filePaths)]
  else base

/-- The head-name list of a stack (`stack.heads.map((h) => h.name)`). -/
def headNames (s : Stack) : List String :=
  s.heads.map fun h => h.name

/-- The `for (const stack of stacks)` loop (lines 53-84): walk the stacks
in listing order; on the first whose head names contain the target branch,
either dispatch directly (single head) or fetch the stack's branch list
through the `branchesOf` oracle and run the archived / not-found checks.
Returns the result and the backend calls issued inside the loop. -/
def resolveLoop (p : CommitParams) (args : List String)
    (branchesOf : String → Except String (List WorkspaceBranch)) :
    List Stack → Except String Unit × List BackendCall
  | [] => (.error ("Branch " ++ p.branch ++ " not found in any stack"), [])
  | stack :: rest =>
    let heads := headNames stack
    if p.branch ∈ heads then
      if heads.length = 1 then
        (.ok (), [.commitDispatch (args ++ ["-s", p.branch])])
      else
        match branchesOf stack.id with
        | .error e => (.error e, [.stackBranchesList stack.id])
        | .ok stackBranches =>
          if stackBranches.length = 0 then
            (.error ("No branches found in stack " ++ stack.id),
             [.stackBranchesList stack.id])
          else
            match stackBranches.find? (fun b => b.name = p.branch) with
            | none =>
              (.error ("Branch " ++ p.branch ++ " not found in stack " ++ stack.id),
               [.stackBranchesList stack.id])
            | some b =>
              if b.archived then
                (.error ("Branch " ++ p.branch ++ " is archived"),
                 [.stackBranchesList stack.id])
              else
                (.ok (),
                 [.stackBranchesList stack.id,
                  .commitDispatch (args ++ ["-s", p.branch])])
    else resolveLoop p args branchesOf rest

/-- The `commit` tool function (lines 25-85): validate the
`all` / `filePaths` exclusivity, build the arguments, list the stacks,
fail on an empty listing, then resolve and dispatch. The returned trace is
the ordered list of backend calls actually issued. -/
def commit (p : CommitParams) (stackList : List Stack)
    (branchesOf : String → Except String (List WorkspaceBranch)) :
    Except String Unit × List BackendCall :=
  if p.all ∧ p.filePaths.length > 0 then
    (.error "Cannot use --all and file paths together", [])
  else
    let args := buildArgs p
    if stackList.length = 0 then
      (.error "No stacks found", [BackendCall.stacksList])
    else
      let res := resolveLoop p args branchesOf stackList
      (res.1, BackendCall.stacksList :: res.2)

/-- Substring occurrence at the head of a character list. -/
def leadsWith : List Char → List Char → Bool
  | [], _ => true
  | _ :: _, [] => false
  | a :: as, b :: bs => a = b && leadsWith as bs

/-- Substring occurrence anywhere in a character list. -/
def occursInList (needle : List Char) : List Char → Bool
  | [] => leadsWith needle []
  | c :: cs => leadsWith needle (c :: cs) || occursInList needle cs

/-- "The message mentions the branch name": the name occurs as a
contiguous substring of the message. -/
def mentions (needle hay : String) : Bool :=
  occursInList needle.toList hay.toList

/-! ### Redux tag / invalidation model (`injectEndpoints`) -/

/-- The resource-category tags used by the endpoints (`ReduxTag`). -/
inductive ReduxTag where
  | Stacks : ReduxTag
  | StackBranches : ReduxTag
  | Commit : ReduxTag
  | CommitChanges : ReduxTag
deriving DecidableEq, Repr

/-- `providesTags` of the `getStacks` query. -/
def getStacksProvides : List ReduxTag := [.Stacks]

/-- `providesTags` of the `getStackBranches` query. -/
def getStackBranchesProvides : List ReduxTag := [.StackBranches]

/-- `providesTags` of the `getCommitChanges` query. -/
def getCommitChangesProvides : List ReduxTag := [.CommitChanges]

/-- `invalidatesTags` of the `createStack` mutation. -/
def createStackInvalidates : List ReduxTag := [.Stacks]

/-- `invalidatesTags` of the `createCommit` mutation
(`create_commit_from_worktree_changes`). -/
def createCommitInvalidates : List ReduxTag := [.StackBranches, .Commit]

/-- `invalidatesTags` of the `updateCommitMessage` mutation. -/
def updateCommitMessageInvalidates : List ReduxTag := [.StackBranches]

/-- Freshness of one cached query result. -/
inductive CacheState where
  | Fresh : CacheState
  | Stale : CacheState
deriving DecidableEq, Repr

/-- One cache entry: the tags its query provides, and its freshness. -/
structure CacheEntry where
  provides : List ReduxTag
  state : CacheState
deriving DecidableEq, Repr

/-- Effect of a successful mutation on one cache entry: the entry turns
stale exactly when one of its provided tags is among the mutation's
invalidated tags (Redux-toolkit query tag invalidation). -/
def invalidateEntry (invalidated : List ReduxTag) (e : CacheEntry) : CacheEntry :=
  if e.provides.any (fun t => invalidated.contains t) then
    { e with state := .Stale }
  else e

/-! ### Entity adapter (`branchAdapter`) and `getBranchByIndex` -/

/-- `createEntityAdapter.addOne` on a branch state keyed by `name`
(`selectId: (change) => change.name`): an entity whose key is already
present is not added again. The insertion-ordered value list is the
canonical store; the sorted view is derived by `branchView`. -/
def addOne (st : List WorkspaceBranch) (b : WorkspaceBranch) : List WorkspaceBranch :=
  if st.any fun x => x.name = b.name then st else st ++ [b]

/-- `branchAdapter.addMany` starting from a given state. -/
def addMany (st : List WorkspaceBranch) (bs : List WorkspaceBranch) : List WorkspaceBranch :=
  bs.foldl addOne st

/-- Character-wise lexicographic comparison of character lists; the
deterministic model of the adapter's `localeCompare` sort comparer. -/
def charListLe : List Char → List Char → Bool
  | [], _ => true
  | _ :: _, [] => false
  | a :: as, b :: bs =>
    if a < b then true
    else if b < a then false
    else charListLe as bs

/-- Lexicographic string comparison used by the `sortComparer`. -/
def strLe (s t : String) : Bool := charListLe s.toList t.toList

/-- The adapter's comparer relation: `sortComparer` orders records by
`name`. -/
def brLe (a b : WorkspaceBranch) : Prop := strLe a.name b.name = true

/-- Strict version of `brLe`, used to state uniqueness of the sorted view. -/
def brLt (a b : WorkspaceBranch) : Prop := brLe a b ∧ a.name ≠ b.name

instance : DecidableRel brLe := fun a b =>
  inferInstanceAs (Decidable (strLe a.name b.name = true))

theorem charListLe_total : ∀ as bs : List Char,
    charListLe as bs = true ∨ charListLe bs as = true
  | [], bs => Or.inl rfl
  | _ :: _, [] => Or.inr rfl
  | a :: as, b :: bs => by
    rcases lt_trichotomy a b with hab | hab | hab
    · left
      simp [charListLe, hab]
    · subst hab
      rcases charListLe_total as bs with h | h
      · left
        simpa [charListLe] using h
      · right
        simpa [charListLe] using h
    · right
      simp [charListLe, hab]

theorem charListLe_trans : ∀ as bs cs : List Char,
    charListLe as bs = true → charListLe bs cs = true → charListLe as cs = true
  | [], _, _, _, _ => rfl
  | _ :: _, [], _, h1, _ => by simp [charListLe] at h1
  | _ :: _, _ :: _, [], _, h2 => by simp [charListLe] at h2
  | a :: as, b :: bs, c :: cs, h1, h2 => by
    rcases lt_trichotomy a b with hab | hab | hab
    · rcases lt_trichotomy b c with hbc | hbc | hbc
      · simp [charListLe, lt_trans hab hbc]
      · subst hbc
        simp [charListLe, hab]
      · simp [charListLe, not_lt_of_lt hbc, hbc] at h2
    · subst hab
      simp only [charListLe, lt_irrefl, if_false] at h1
      rcases lt_trichotomy a c with hac | hac | hac
      · simp [charListLe, hac]
      · subst hac
        simp only [charListLe, lt_irrefl, if_false] at h2 ⊢
        exact charListLe_trans as bs cs h1 h2
      · simp [charListLe, not_lt_of_lt hac, hac] at h2
    · simp [charListLe, not_lt_of_lt hab, hab] at h1

theorem charListLe_antisymm : ∀ as bs : List Char,
    charListLe as bs = true → charListLe bs as = true → as = bs
  | [], [], _, _ => rfl
  | [], _ :: _, _, h2 => by simp [charListLe] at h2
  | _ :: _, [], h1, _ => by simp [charListLe] at h1
  | a :: as, b :: bs, h1, h2 => by
    rcases lt_trichotomy a b with hab | hab | hab
    · simp [charListLe, not_lt_of_lt hab, hab] at h2
    · subst hab
      simp only [charListLe, lt_irrefl, if_false] at h1 h2
      rw [charListLe_antisymm as bs h1 h2]
    · simp [charListLe, not_lt_of_lt hab, hab] at h1

theorem strLe_antisymm {s t : String} (h1 : strLe s t = true)
    (h2 : strLe t s = true) : s = t := by
  have := charListLe_antisymm s.toList t.toList h1 h2
  exact String.ext this

instance : IsTotal WorkspaceBranch brLe :=
  ⟨fun a b => charListLe_total a.name.toList b.name.toList⟩

instance : IsTrans WorkspaceBranch brLe :=
  ⟨fun _ _ _ h h' => charListLe_trans _ _ _ h h'⟩

instance : IsAntisymm WorkspaceBranch brLt :=
  ⟨fun _ _ h h' => absurd (strLe_antisymm h.1 h'.1) h.2⟩

/-- `branchSelectors.selectAll` composed with
`branchAdapter.addMany(branchAdapter.getInitialState(), response)`
(the `transformResponse` of `getStackBranches` followed by the
`selectAll` transform): the name-keyed store rendered in `sortComparer`
order. -/
def branchView (response : List WorkspaceBranch) : List WorkspaceBranch :=
  List.insertionSort brLe (addMany [] response)

/-- JavaScript `Array.prototype.at`: non-negative indices count from the
front, negative indices from the back, anything out of that range gives
`undefined` (`none`). -/
def atJS (l : List α) (i : Int) : Option α :=
  let k : Int := if i < 0 then (l.length : Int) + i else i
  if 0 ≤ k then l.get? k.toNat else none

/-- `getBranchByIndex` (lines 258-267): the `getStackBranches` result for
the stack, normalized and sorted, indexed with `.at(index)`. The
projectId/stackId arguments only select which fetched response is read,
so the model takes the response directly. -/
def getBranchByIndex (response : List WorkspaceBranch) (i : Int) : Option WorkspaceBranch :=
  atJS (branchView response) i

/-! ### Helper lemmas about the commit loop and messages -/

theorem leadsWith_append : ∀ (n rest : List Char), leadsWith n (n ++ rest) = true
  | [], _ => rfl
  | c :: cs, rest => by simp [leadsWith, leadsWith_append cs rest]

theorem occursInList_nil (l : List Char) : occursInList [] l = true := by
  cases l <;> simp [occursInList, leadsWith]

theorem occursInList_append : ∀ (pre n post : List Char),
    occursInList n (pre ++ (n ++ post)) = true
  | [], n, post => by
    cases n with
    | nil => simp [occursInList_nil]
    | cons c cs =>
      simp only [List.nil_append, List.cons_append, occursInList]
      rw [show c :: cs.append post = (c :: cs) ++ post from rfl, leadsWith_append,
        Bool.true_or]
  | c :: pre, n, post => by
    simp [occursInList, occursInList_append pre n post]

/-- A string occurs in any string of which it is an infix. -/
theorem mentions_of_infix (preS x postS : String) :
    mentions x (preS ++ x ++ postS) = true := by
  unfold mentions
  have hd : (preS ++ x ++ postS).toList = preS.toList ++ (x.toList ++ postS.toList) := by
    simp [String.toList, String.data_append, List.append_assoc]
  rw [hd]
  exact occursInList_append _ _ _

theorem string_append_cancel_left {a x y : String} (h : a ++ x = a ++ y) : x = y := by
  have hd := congrArg String.data h
  rw [String.data_append, String.data_append] at hd
  exact String.ext (List.append_cancel_left hd)

/-- A literal whose first seven characters are not `"Branch "` differs from
every message of the form `"Branch " ++ b ++ tail`. -/
theorem lit_ne_branch_msg (lit b tail : String)
    (h7 : lit.data.take 7 ≠ "Branch ".data) : lit ≠ "Branch " ++ b ++ tail := by
  intro he
  apply h7
  have hd := congrArg (fun s : String => s.data.take 7) he
  simp only [String.data_append, List.append_assoc] at hd
  rw [show (7 : Nat) = "Branch ".data.length from rfl, List.take_left] at hd
  exact hd

/-- The "not found in any stack" message never coincides with the
"is archived" message for the same branch name. -/
theorem notfound_ne_archived (b : String) :
    "Branch " ++ b ++ " not found in any stack" ≠ "Branch " ++ b ++ " is archived" := by
  intro he
  have ht := congrArg String.data (string_append_cancel_left he)
  exact absurd ht (by decide)

/-- Skipping stacks whose head names do not contain the target. -/
theorem resolveLoop_skip (p : CommitParams) (args : List String)
    (branchesOf : String → Except String (List WorkspaceBranch)) :
    ∀ (pre rest : List Stack), (∀ t ∈ pre, p.branch ∉ headNames t) →
      resolveLoop p args branchesOf (pre ++ rest) = resolveLoop p args branchesOf rest
  | [], _, _ => rfl
  | t :: pre, rest, h => by
    have ht : p.branch ∉ headNames t := h t (List.mem_cons_self t pre)
    have hrest : ∀ u ∈ pre, p.branch ∉ headNames u := fun u hu =>
      h u (List.mem_cons_of_mem _ hu)
    simp only [List.cons_append, resolveLoop, if_neg ht]
    exact resolveLoop_skip p args branchesOf pre rest hrest

/-- Every commit dispatch the loop can issue carries the accumulated
arguments followed by `-s <branch>`. -/
theorem resolveLoop_dispatch_shape (p : CommitParams) (args : List String)
    (branchesOf : String → Except String (List WorkspaceBranch)) :
    ∀ (l : List Stack) (a : List String),
      BackendCall.commitDispatch a ∈ (resolveLoop p args branchesOf l).2 →
      a = args ++ ["-s", p.branch]
  | [], a, h => by simp [resolveLoop] at h
  | stack :: rest, a, h => by
    by_cases hmem : p.branch ∈ headNames stack
    · by_cases hone : (headNames stack).length = 1
      · simp [resolveLoop, hmem, hone] at h
        exact h
      · cases hbo : branchesOf stack.id with
        | error e => simp [resolveLoop, hmem, hone, hbo] at h
        | ok sbs =>
          by_cases hlen : sbs.length = 0
          · simp [resolveLoop, hmem, hone, hbo, hlen] at h
          · cases hfind : sbs.find? (fun b => b.name = p.branch) with
            | none => simp [resolveLoop, hmem, hone, hbo, hlen, hfind] at h
            | some b =>
              by_cases harch : b.archived
              · simp [resolveLoop, hmem, hone, hbo, hlen, hfind, harch] at h
              · simp [resolveLoop, hmem, hone, hbo, hlen, hfind, harch] at h
                exact h
    · simp only [resolveLoop, if_neg hmem] at h
      exact resolveLoop_dispatch_shape p args branchesOf rest a h

/-- An "is archived" failure can only come out of the loop at a stack
that contains the target among more than one head. -/
theorem resolveLoop_archived_multi (p : CommitParams) (args : List String)
    (branchesOf : String → Except String (List WorkspaceBranch)) :
    ∀ l : List Stack,
      (resolveLoop p args branchesOf l).1 =
        .error ("Branch " ++ p.branch ++ " is archived") →
      ∃ pre s post, l = pre ++ s :: post ∧
        (∀ t ∈ pre, p.branch ∉ headNames t) ∧
        p.branch ∈ headNames s ∧ 1 < (headNames s).length
  | [], h => by
    simp only [resolveLoop, Except.error.injEq] at h
    exact absurd h (notfound_ne_archived p.branch)
  | stack :: rest, h => by
    by_cases hmem : p.branch ∈ headNames stack
    · by_cases hone : (headNames stack).length = 1
      · simp [resolveLoop, hmem, hone] at h
      · refine ⟨[], stack, rest, rfl, by simp, hmem, ?_⟩
        have hpos : 0 < (headNames stack).length :=
          List.length_pos.mpr (List.ne_nil_of_mem hmem)
        omega
    · simp only [resolveLoop, if_neg hmem] at h
      obtain ⟨pre, s, post, heq, hpre, hm, hlen⟩ :=
        resolveLoop_archived_multi p args branchesOf rest h
      refine ⟨stack :: pre, s, post, by rw [heq, List.cons_append], ?_, hm, hlen⟩
      intro t ht
      rcases List.mem_cons.mp ht with rfl | ht'
      · exact hmem
      · exact hpre t ht'

/-- Unfolding `commit` past validation and the empty-listing check down
to the loop at the first stack whose heads contain the target. -/
theorem commit_reaches_first_match (p : CommitParams) (pre : List Stack)
    (s : Stack) (post : List Stack)
    (branchesOf : String → Except String (List WorkspaceBranch))
    (hvalid : p.all = false ∨ p.filePaths = [])
    (hpre : ∀ t ∈ pre, p.branch ∉ headNames t) :
    commit p (pre ++ s :: post) branchesOf =
      ((resolveLoop p (buildArgs p) branchesOf (s :: post)).1,
        BackendCall.stacksList ::
          (resolveLoop p (buildArgs p) branchesOf (s :: post)).2) := by
  have hval : ¬(p.all = true ∧ p.filePaths.length > 0) := by
    rcases hvalid with h | h <;> simp [h]
  have hne : ¬((pre ++ s :: post).length = 0) := by simp
  unfold commit
  rw [if_neg hval, if_neg hne, resolveLoop_skip p (buildArgs p) branchesOf pre (s :: post) hpre]

/-- The single-head fast path: when the first stack containing the
target has exactly one head, `commit` dispatches directly, with no
`stack_branches` fetch, whatever the branch-list oracle would answer. -/
theorem commit_fast_path (p : CommitParams) (pre : List Stack) (s : Stack)
    (post : List Stack)
    (branchesOf : String → Except String (List WorkspaceBranch))
    (hvalid : p.all = false ∨ p.filePaths = [])
    (hpre : ∀ t ∈ pre, p.branch ∉ headNames t)
    (hmem : p.branch ∈ headNames s)
    (hone : (headNames s).length = 1) :
    commit p (pre ++ s :: post) branchesOf =
      (.ok (), [BackendCall.stacksList,
        BackendCall.commitDispatch (buildArgs p ++ ["-s", p.branch])]) := by
  rw [commit_reaches_first_match p pre s post branchesOf hvalid hpre]
  simp [resolveLoop, hmem, hone]

/-! ### Theorems -/

/-- C3. Mutual exclusion: `all = true` together with a non-empty
`filePaths` list fails with the validation error
(`Cannot use --all and file paths together`) and issues no backend call
at all: no stack listing, no branch listing, no dispatch (the trace is
empty). -/
theorem commit_mutual_exclusion (p : CommitParams) (stackList : List Stack)
    (branchesOf : String → Except String (List WorkspaceBranch))
    (hall : p.all = true) (hpaths : p.filePaths ≠ []) :
    commit p stackList branchesOf =
      (.error "Cannot use --all and file paths together", []) := by
  have hlen : p.filePaths.length > 0 := List.length_pos.mpr hpaths
  simp [commit, hall, hlen]

/-- Witness for C3 at a concrete input. -/
theorem commit_mutual_exclusion_witness :
    commit ⟨"msg", true, ["a.txt"], "main"⟩ [⟨"s1", [⟨"main"⟩]⟩]
        (fun _ => Except.ok []) =
      (.error "Cannot use --all and file paths together", []) :=
  commit_mutual_exclusion ⟨"msg", true, ["a.txt"], "main"⟩ [⟨"s1", [⟨"main"⟩]⟩]
    (fun _ => Except.ok []) rfl (by simp)

/-- C10. `getBranchByIndex` is total at the boundary: a non-negative
index reads the name-sorted view at that position (`none` beyond the
length), an in-range negative index reads from the back, and any index
outside the range `[-length, length)` yields `undefined` (`none`) rather
than an exception. -/
theorem getBranchByIndex_spec (response : List WorkspaceBranch) (i : Int) :
    (0 ≤ i → getBranchByIndex response i = (branchView response).get? i.toNat) ∧
    (i < 0 → -((branchView response).length : Int) ≤ i →
      getBranchByIndex response i =
        (branchView response).get? (((branchView response).length : Int) + i).toNat) ∧
    ((i < -((branchView response).length : Int) ∨
        ((branchView response).length : Int) ≤ i) →
      getBranchByIndex response i = none) := by
  refine ⟨?_, ?_, ?_⟩
  · intro h
    have hnot : ¬ i < 0 := not_lt.mpr h
    simp [getBranchByIndex, atJS, hnot, h]
  · intro hneg hge
    have hk : (0 : Int) ≤ (((branchView response).length : Int) + i) := by omega
    simp [getBranchByIndex, atJS, hneg, hk]
  · intro h
    rcases h with h | h
    · have hneg : i < 0 := by omega
      have hk : ¬ (0 : Int) ≤ (((branchView response).length : Int) + i) := by omega
      simp [getBranchByIndex, atJS, hneg, hk]
    · have hnneg : ¬ i < 0 := by omega
      have hk : (0 : Int) ≤ i := by omega
      have hout : (branchView response).length ≤ i.toNat := by omega
      simp [getBranchByIndex, atJS, hnneg, hk, List.get?_eq_none]
      omega

/-- Witness for C10 at a concrete input: index 1 reads the sorted view,
index -1 reads from the back, index 5 is out of range. -/
theorem getBranchByIndex_spec_witness :
    getBranchByIndex [⟨"b", false⟩, ⟨"a", true⟩] 1 =
        (branchView [⟨"b", false⟩, ⟨"a", true⟩]).get? 1 ∧
      getBranchByIndex [⟨"b", false⟩, ⟨"a", true⟩] (-1) =
        (branchView [⟨"b", false⟩, ⟨"a", true⟩]).get?
          (((branchView [⟨"b", false⟩, ⟨"a", true⟩]).length : Int) + (-1)).toNat ∧
      getBranchByIndex [⟨"b", false⟩, ⟨"a", true⟩] 5 = none := by
  have hlen : (branchView [⟨"b", false⟩, ⟨"a", true⟩]).length = 2 := rfl
  exact ⟨(getBranchByIndex_spec [⟨"b", false⟩, ⟨"a", true⟩] 1).1 (by decide),
    (getBranchByIndex_spec [⟨"b", false⟩, ⟨"a", true⟩] (-1)).2.1 (by decide)
      (by rw [hlen]; norm_num),
    (getBranchByIndex_spec [⟨"b", false⟩, ⟨"a", true⟩] 5).2.2
      (by rw [hlen]; norm_num)⟩

/-- C2 counterexample: on the empty stack list the commit operation
fails with `No stacks found`, a message that does not mention the target
branch name (here `feature`), contradicting the claim that every
no-match failure carries the branch name. No commit is dispatched. -/
theorem commit_empty_list_message_lacks_branch :
    commit ⟨"msg", false, [], "feature"⟩ [] (fun _ => Except.ok []) =
        (.error "No stacks found", [BackendCall.stacksList]) ∧
      mentions "feature" "No stacks found" = false := by
  constructor <;> rfl

/-- C2 (amended). On a non-empty stack list in which no stack's head
names contain the target, `commit` fails with the not-found message that
does mention the branch name and dispatches nothing besides the `stacks`
listing; on the empty list it fails with `No stacks found` (which does
not mention the name) — covered by the counterexample above. -/
theorem commit_no_match (p : CommitParams) (stackList : List Stack)
    (branchesOf : String → Except String (List WorkspaceBranch))
    (hvalid : p.all = false ∨ p.filePaths = [])
    (hne : stackList ≠ [])
    (hnomatch : ∀ t ∈ stackList, p.branch ∉ headNames t) :
    commit p stackList branchesOf =
        (.error ("Branch " ++ p.branch ++ " not found in any stack"),
          [BackendCall.stacksList]) ∧
      mentions p.branch ("Branch " ++ p.branch ++ " not found in any stack") = true := by
  constructor
  · have hval : ¬(p.all = true ∧ p.filePaths.length > 0) := by
      rcases hvalid with h | h <;> simp [h]
    have hlen : ¬(stackList.length = 0) := by
      simpa [List.length_eq_zero] using hne
    unfold commit
    rw [if_neg hval, if_neg hlen]
    have hskip := resolveLoop_skip p (buildArgs p) branchesOf stackList [] hnomatch
    rw [List.append_nil] at hskip
    rw [hskip]
    rfl
  · exact mentions_of_infix "Branch " p.branch " not found in any stack"

/-- Witness for C2's amended theorem at a concrete input. -/
theorem commit_no_match_witness :
    commit ⟨"msg", false, [], "feature"⟩ [⟨"s1", [⟨"main"⟩]⟩] (fun _ => Except.ok []) =
        (.error ("Branch " ++ "feature" ++ " not found in any stack"),
          [BackendCall.stacksList]) ∧
      mentions "feature" ("Branch " ++ "feature" ++ " not found in any stack") = true :=
  commit_no_match ⟨"msg", false, [], "feature"⟩ [⟨"s1", [⟨"main"⟩]⟩]
    (fun _ => Except.ok []) (Or.inl rfl) (by decide) (by decide)

/-- C4. Single-head fast path: when the first stack whose head names
contain the target branch has exactly one head, `commit` dispatches to
that stack and branch with no `stack_branches` fetch in the trace, and
the result is the same for every branch-list oracle — in particular the
operation succeeds even when that fetch would fail. -/
theorem commit_single_head_fast_path (p : CommitParams) (pre : List Stack)
    (s : Stack) (post : List Stack)
    (branchesOf : String → Except String (List WorkspaceBranch))
    (hvalid : p.all = false ∨ p.filePaths = [])
    (hpre : ∀ t ∈ pre, p.branch ∉ headNames t)
    (hmem : p.branch ∈ headNames s)
    (hone : (headNames s).length = 1) :
    commit p (pre ++ s :: post) branchesOf =
      (.ok (), [BackendCall.stacksList,
        BackendCall.commitDispatch (buildArgs p ++ ["-s", p.branch])]) :=
  commit_fast_path p pre s post branchesOf hvalid hpre hmem hone

/-- Witness for C4: the oracle always fails, yet the commit succeeds and
the trace has no `stack_branches` fetch. -/
theorem commit_single_head_fast_path_witness :
    commit ⟨"msg", false, [], "main"⟩
        ([⟨"s0", [⟨"x"⟩, ⟨"y"⟩]⟩] ++ ⟨"s1", [⟨"main"⟩]⟩ :: [])
        (fun _ => Except.error "backend down") =
      (.ok (), [BackendCall.stacksList,
        BackendCall.commitDispatch
          (buildArgs ⟨"msg", false, [], "main"⟩ ++ ["-s", "main"])]) :=
  commit_single_head_fast_path ⟨"msg", false, [], "main"⟩ [⟨"s0", [⟨"x"⟩, ⟨"y"⟩]⟩]
    ⟨"s1", [⟨"main"⟩]⟩ [] (fun _ => Except.error "backend down")
    (Or.inl rfl) (by decide) (by decide) (by decide)

/-- C5. Archived exclusion: when the first stack containing the target
has more than one head and the branch record found under that name in
the fetched branch list is archived, `commit` fails with the archived
conflict message and dispatches no commit (the trace holds only the
stacks listing and the one branch-list fetch). -/
theorem commit_archived_conflict (p : CommitParams) (pre : List Stack)
    (s : Stack) (post : List Stack)
    (branchesOf : String → Except String (List WorkspaceBranch))
    (sbs : List WorkspaceBranch) (b : WorkspaceBranch)
    (hvalid : p.all = false ∨ p.filePaths = [])
    (hpre : ∀ t ∈ pre, p.branch ∉ headNames t)
    (hmem : p.branch ∈ headNames s)
    (hmulti : 1 < (headNames s).length)
    (hbo : branchesOf s.id = .ok sbs)
    (hfind : sbs.find? (fun x => x.name = p.branch) = some b)
    (harch : b.archived = true) :
    commit p (pre ++ s :: post) branchesOf =
      (.error ("Branch " ++ p.branch ++ " is archived"),
        [BackendCall.stacksList, BackendCall.stackBranchesList s.id]) := by
  rw [commit_reaches_first_match p pre s post branchesOf hvalid hpre]
  have hone : ¬((headNames s).length = 1) := by omega
  have hsbs : ¬(sbs.length = 0) := by
    intro h0
    rw [List.length_eq_zero] at h0
    subst h0
    simp at hfind
  simp [resolveLoop, hmem, hone, hbo, hsbs, hfind, harch]

/-- Witness for C5 at a concrete input. -/
theorem commit_archived_conflict_witness :
    commit ⟨"msg", false, [], "f2"⟩ ([] ++ ⟨"s2", [⟨"f1"⟩, ⟨"f2"⟩]⟩ :: [])
        (fun _ => Except.ok [⟨"f1", false⟩, ⟨"f2", true⟩]) =
      (.error ("Branch " ++ "f2" ++ " is archived"),
        [BackendCall.stacksList, BackendCall.stackBranchesList "s2"]) :=
  commit_archived_conflict ⟨"msg", false, [], "f2"⟩ [] ⟨"s2", [⟨"f1"⟩, ⟨"f2"⟩]⟩ []
    (fun _ => Except.ok [⟨"f1", false⟩, ⟨"f2", true⟩])
    [⟨"f1", false⟩, ⟨"f2", true⟩] ⟨"f2", true⟩
    (Or.inl rfl) (by simp) (by decide) (by decide) rfl (by decide) rfl

/-- C8. Inconsistent-state guard: when the first stack containing the
target has more than one head and the branch-list fetch returns the
empty list, `commit` fails with the "No branches found" message and
dispatches no commit. -/
theorem commit_empty_branch_list (p : CommitParams) (pre : List Stack)
    (s : Stack) (post : List Stack)
    (branchesOf : String → Except String (List WorkspaceBranch))
    (hvalid : p.all = false ∨ p.filePaths = [])
    (hpre : ∀ t ∈ pre, p.branch ∉ headNames t)
    (hmem : p.branch ∈ headNames s)
    (hmulti : 1 < (headNames s).length)
    (hbo : branchesOf s.id = .ok []) :
    commit p (pre ++ s :: post) branchesOf =
      (.error ("No branches found in stack " ++ s.id),
        [BackendCall.stacksList, BackendCall.stackBranchesList s.id]) := by
  rw [commit_reaches_first_match p pre s post branchesOf hvalid hpre]
  have hone : ¬((headNames s).length = 1) := by omega
  simp [resolveLoop, hmem, hone, hbo]

/-- Witness for C8 at a concrete input. -/
theorem commit_empty_branch_list_witness :
    commit ⟨"msg", false, [], "f2"⟩ ([] ++ ⟨"s2", [⟨"f1"⟩, ⟨"f2"⟩]⟩ :: [])
        (fun _ => Except.ok []) =
      (.error ("No branches found in stack " ++ "s2"),
        [BackendCall.stacksList, BackendCall.stackBranchesList "s2"]) :=
  commit_empty_branch_list ⟨"msg", false, [], "f2"⟩ [] ⟨"s2", [⟨"f1"⟩, ⟨"f2"⟩]⟩ []
    (fun _ => Except.ok []) (Or.inl rfl) (by simp) (by decide) (by decide) rfl

/-- C6. Diff-spec building: with `all = false` and a non-empty
`filePaths` list, every commit dispatch carries the base arguments, a
single `--diff-spec` argument holding the JSON serialization of one
`DiffSpec` per path in caller order — each with `pathBytes` the path and
an empty `hunkHeaders` list — followed by `-s <branch>`. -/
theorem commit_diff_spec_building (p : CommitParams) (stackList : List Stack)
    (branchesOf : String → Except String (List WorkspaceBranch))
    (hall : p.all = false) (hpaths : p.filePaths ≠ []) :
    ∀ a, BackendCall.commitDispatch a ∈ (commit p stackList branchesOf).2 →
      a = ["commit", "--message", p.message, "--diff-spec",
            jsonOfDiffSpecList (p.filePaths.map fun fp =>
              { pathBytes := fp, hunkHeaders := [] }),
            "-s", p.branch] := by
  intro a ha
  have hlen : p.filePaths.length > 0 := List.length_pos.mpr hpaths
  have hb : buildArgs p = ["commit", "--message", p.message, "--diff-spec",
      jsonOfDiffSpecList (p.filePaths.map fun fp =>
        { pathBytes := fp, hunkHeaders := [] })] := by
    simp [buildArgs, hlen, mkDiffSpecs]
  have hval : ¬(p.all = true ∧ p.filePaths.length > 0) := by simp [hall]
  unfold commit at ha
  rw [if_neg hval] at ha
  by_cases hempty : stackList.length = 0
  · rw [if_pos hempty] at ha
    simp at ha
  · rw [if_neg hempty] at ha
    simp only [List.mem_cons] at ha
    rcases ha with hbad | hloop
    · exact absurd hbad (by simp)
    · have := resolveLoop_dispatch_shape p (buildArgs p) branchesOf stackList a hloop
      rw [hb] at this
      simpa using this

/-- Witness for C6 at a concrete input with two paths: the dispatched
argument list carries the literal JSON array, which the theorem equates
with the serialized per-path diff specs. -/
theorem commit_diff_spec_building_witness :
    ["commit", "--message", "msg", "--diff-spec",
        "[\x7b\"pathBytes\":\"a.txt\",\"hunkHeaders\":[]\x7d,\x7b\"pathBytes\":\"b.txt\",\"hunkHeaders\":[]\x7d]",
        "-s", "main"] =
      ["commit", "--message", "msg", "--diff-spec",
        jsonOfDiffSpecList (["a.txt", "b.txt"].map fun fp =>
          { pathBytes := fp, hunkHeaders := [] }),
        "-s", "main"] :=
  commit_diff_spec_building ⟨"msg", false, ["a.txt", "b.txt"], "main"⟩
    [⟨"s1", [⟨"main"⟩]⟩] (fun _ => Except.ok []) rfl (by decide)
    ["commit", "--message", "msg", "--diff-spec",
      "[\x7b\"pathBytes\":\"a.txt\",\"hunkHeaders\":[]\x7d,\x7b\"pathBytes\":\"b.txt\",\"hunkHeaders\":[]\x7d]",
      "-s", "main"] (by decide)

/-- C9. Implicit fast-path behavior: (a) when the first stack containing
the target has exactly one head, the commit is dispatched even if the
branch-list oracle reports that sole head as archived; (b) the archived
failure message can only ever arise when the first stack containing the
target has more than one head. -/
theorem commit_fast_path_bypasses_archived (p : CommitParams) :
    (∀ (pre : List Stack) (s : Stack) (post : List Stack),
      (p.all = false ∨ p.filePaths = []) →
      (∀ t ∈ pre, p.branch ∉ headNames t) →
      p.branch ∈ headNames s →
      (headNames s).length = 1 →
      commit p (pre ++ s :: post) (fun _ => Except.ok [⟨p.branch, true⟩]) =
        (.ok (), [BackendCall.stacksList,
          BackendCall.commitDispatch (buildArgs p ++ ["-s", p.branch])])) ∧
    (∀ (stackList : List Stack)
        (branchesOf : String → Except String (List WorkspaceBranch)),
      (commit p stackList branchesOf).1 =
        .error ("Branch " ++ p.branch ++ " is archived") →
      ∃ pre s post, stackList = pre ++ s :: post ∧
        (∀ t ∈ pre, p.branch ∉ headNames t) ∧
        p.branch ∈ headNames s ∧ 1 < (headNames s).length) := by
  constructor
  · intro pre s post hvalid hpre hmem hone
    exact commit_fast_path p pre s post _ hvalid hpre hmem hone
  · intro stackList branchesOf h
    unfold commit at h
    by_cases hval : p.all = true ∧ p.filePaths.length > 0
    · rw [if_pos hval] at h
      simp only [Except.error.injEq] at h
      exact absurd h
        (lit_ne_branch_msg "Cannot use --all and file paths together" p.branch
          " is archived" (by decide))
    · rw [if_neg hval] at h
      by_cases hempty : stackList.length = 0
      · rw [if_pos hempty] at h
        simp only [Except.error.injEq] at h
        exact absurd h
          (lit_ne_branch_msg "No stacks found" p.branch " is archived" (by decide))
      · rw [if_neg hempty] at h
        exact resolveLoop_archived_multi p (buildArgs p) branchesOf stackList h

/-- Witness for C9: a single-head stack whose sole head the oracle
reports archived still receives the commit. -/
theorem commit_fast_path_bypasses_archived_witness :
    commit ⟨"msg", false, [], "main"⟩ ([] ++ ⟨"s1", [⟨"main"⟩]⟩ :: [])
        (fun _ => Except.ok [⟨"main", true⟩]) =
      (.ok (), [BackendCall.stacksList,
        BackendCall.commitDispatch
          (buildArgs ⟨"msg", false, [], "main"⟩ ++ ["-s", "main"])]) :=
  (commit_fast_path_bypasses_archived ⟨"msg", false, [], "main"⟩).1
    [] ⟨"s1", [⟨"main"⟩]⟩ [] (Or.inl rfl) (by simp) (by decide) (by decide)

/-- C1 counterexample: the claim says a successful `createCommit`
mutation turns every entry tagged `CommitChanges` stale, but
`createCommit` only declares `invalidatesTags: [StackBranches, Commit]`,
so the `getCommitChanges` entry — tagged exactly `CommitChanges` — stays
`Fresh`. -/
theorem createCommit_leaves_commitChanges_fresh :
    invalidateEntry createCommitInvalidates ⟨getCommitChangesProvides, .Fresh⟩ =
        ⟨getCommitChangesProvides, .Fresh⟩ ∧
      getCommitChangesProvides = [ReduxTag.CommitChanges] := by
  constructor <;> rfl

/-- C1 (amended). After a successful `createCommit` dispatch a fresh
cache entry becomes stale exactly when it provides the `StackBranches`
or the `Commit` tag; entries tagged solely `Stacks` — and also entries
tagged solely `CommitChanges` — remain `Fresh`. -/
theorem createCommit_invalidation_precise (e : CacheEntry) (h : e.state = .Fresh) :
    ((invalidateEntry createCommitInvalidates e).state = .Stale ↔
      (ReduxTag.StackBranches ∈ e.provides ∨ ReduxTag.Commit ∈ e.provides)) := by
  have hct : ∀ t : ReduxTag, (createCommitInvalidates.contains t = true) ↔
      (t = ReduxTag.StackBranches ∨ t = ReduxTag.Commit) := by
    intro t
    cases t <;> decide
  have hmem : ((e.provides.any fun t => createCommitInvalidates.contains t) = true) ↔
      (ReduxTag.StackBranches ∈ e.provides ∨ ReduxTag.Commit ∈ e.provides) := by
    rw [List.any_eq_true]
    constructor
    · rintro ⟨t, ht, hc⟩
      rcases (hct t).mp hc with rfl | rfl
      · exact Or.inl ht
      · exact Or.inr ht
    · rintro (h1 | h1)
      · exact ⟨_, h1, (hct _).mpr (Or.inl rfl)⟩
      · exact ⟨_, h1, (hct _).mpr (Or.inr rfl)⟩
  unfold invalidateEntry
  by_cases hc : (e.provides.any fun t => createCommitInvalidates.contains t) = true
  · rw [if_pos hc]
    simp [hmem.mp hc]
  · rw [if_neg hc, h]
    constructor
    · intro hfs
      exact absurd hfs (by decide)
    · intro hr
      exact absurd (hmem.mpr hr) hc

/-- Witness for C1's amended theorem at a concrete entry: the
`getStackBranches` entry (tagged `StackBranches`) does become stale. -/
theorem createCommit_invalidation_precise_witness :
    (invalidateEntry createCommitInvalidates
        ⟨getStackBranchesProvides, .Fresh⟩).state = .Stale ↔
      (ReduxTag.StackBranches ∈ getStackBranchesProvides ∨
        ReduxTag.Commit ∈ getStackBranchesProvides) :=
  createCommit_invalidation_precise ⟨getStackBranchesProvides, .Fresh⟩ rfl

/-- When the incoming branch names are pairwise distinct, `addMany` into
the empty adapter state keeps every record in fetch order. -/
theorem addMany_of_nodup : ∀ (l st : List WorkspaceBranch),
    ((st ++ l).map WorkspaceBranch.name).Nodup → addMany st l = st ++ l
  | [], st, _ => by simp [addMany]
  | b :: l, st, h => by
    have hdisj : List.Disjoint (st.map WorkspaceBranch.name)
        ((b :: l).map WorkspaceBranch.name) := by
      rw [List.map_append] at h
      exact List.disjoint_of_nodup_append h
    have hne : ¬(st.any fun x => x.name = b.name) = true := by
      intro hany
      rw [List.any_eq_true] at hany
      obtain ⟨x, hx, hxe⟩ := hany
      have hxe' : x.name = b.name := by simpa using hxe
      have hmem1 : x.name ∈ st.map WorkspaceBranch.name := List.mem_map_of_mem _ hx
      have hmem2 : x.name ∈ (b :: l).map WorkspaceBranch.name := by
        rw [hxe']
        exact List.mem_map_of_mem _ (List.mem_cons_self b l)
      exact hdisj hmem1 hmem2
    have hstep : addOne st b = st ++ [b] := by simp [addOne, hne]
    have happ : (st ++ [b]) ++ l = st ++ b :: l := by simp
    have h' : (((st ++ [b]) ++ l).map WorkspaceBranch.name).Nodup := by
      rw [happ]
      exact h
    calc addMany st (b :: l) = addMany (st ++ [b]) l := by
          simp [addMany, hstep]
      _ = (st ++ [b]) ++ l := addMany_of_nodup l (st ++ [b]) h'
      _ = st ++ b :: l := happ

/-- A list sorted under the comparer whose names are pairwise distinct is
strictly sorted. -/
theorem pairwise_brLt_of_sorted (l : List WorkspaceBranch)
    (hs : l.Pairwise brLe) (hn : (l.map WorkspaceBranch.name).Nodup) :
    l.Pairwise brLt := by
  have hn' : l.Pairwise fun a b => ¬(a.name = b.name) := by
    simpa [List.Nodup, List.pairwise_map] using hn
  exact (hs.and hn').imp fun h => ⟨h.1, h.2⟩

/-- C7. Normalized sorted view: for every fetched branch list with
pairwise-distinct names (the entity adapter keys records by `name`), the
exposed `selectAll` view is sorted by the name comparer, holds exactly
the fetched records, and is identical for any two fetches that are
permutations of each other — insertion-order independence. -/
theorem branchView_normalized (l1 l2 : List WorkspaceBranch)
    (hperm : l1.Perm l2) (hnodup : (l1.map WorkspaceBranch.name).Nodup) :
    (branchView l1).Pairwise brLe ∧
      (branchView l1).Perm l1 ∧
      branchView l1 = branchView l2 := by
  have hnodup2 : (l2.map WorkspaceBranch.name).Nodup :=
    ((hperm.map WorkspaceBranch.name).nodup_iff).mp hnodup
  have h1 : addMany [] l1 = l1 := by
    simpa using addMany_of_nodup l1 [] (by simpa using hnodup)
  have h2 : addMany [] l2 = l2 := by
    simpa using addMany_of_nodup l2 [] (by simpa using hnodup2)
  have hsort1 : (branchView l1).Pairwise brLe := by
    rw [branchView, h1]
    exact List.sorted_insertionSort brLe l1
  have hsort2 : (branchView l2).Pairwise brLe := by
    rw [branchView, h2]
    exact List.sorted_insertionSort brLe l2
  have hp1 : (branchView l1).Perm l1 := by
    rw [branchView, h1]
    exact List.perm_insertionSort brLe l1
  have hp2 : (branchView l2).Perm l2 := by
    rw [branchView, h2]
    exact List.perm_insertionSort brLe l2
  refine ⟨hsort1, hp1, ?_⟩
  have hn1 : ((branchView l1).map WorkspaceBranch.name).Nodup :=
    ((hp1.map WorkspaceBranch.name).nodup_iff).mpr hnodup
  have hn2 : ((branchView l2).map WorkspaceBranch.name).Nodup :=
    ((hp2.map WorkspaceBranch.name).nodup_iff).mpr hnodup2
  have hlt1 := pairwise_brLt_of_sorted _ hsort1 hn1
  have hlt2 := pairwise_brLt_of_sorted _ hsort2 hn2
  have hp : (branchView l1).Perm (branchView l2) :=
    hp1.trans (hperm.trans hp2.symm)
  exact List.eq_of_perm_of_sorted hp hlt1 hlt2

/-- Witness for C7 at a concrete input: two fetch orders of the same two
branches expose the same sorted view. -/
theorem branchView_normalized_witness :
    (branchView [⟨"b", false⟩, ⟨"a", true⟩]).Pairwise brLe ∧
      (branchView [⟨"b", false⟩, ⟨"a", true⟩]).Perm [⟨"b", false⟩, ⟨"a", true⟩] ∧
      branchView [⟨"b", false⟩, ⟨"a", true⟩] = branchView [⟨"a", true⟩, ⟨"b", false⟩] :=
  branchView_normalized [⟨"b", false⟩, ⟨"a", true⟩] [⟨"a", true⟩, ⟨"b", false⟩]
    (List.Perm.swap (⟨"a", true⟩ : WorkspaceBranch) (⟨"b", false⟩ : WorkspaceBranch) [])
    (by decide)

end GitButler
